import Mathlib

/-!
Verification development for `weighted2D.py`: a weighted least-squares
straight-line fit with errors in both coordinates (B. Reed, Am. J. Phys. 60,
1992).  The machine floating-point numbers of the source are idealized as
exact rationals; the two square roots taken at the very end of `wls2d` are
taken in `ℝ` via `Real.sqrt`.  The external minimizer `scipy.optimize.fmin`
is modelled as an explicit parameter: a deterministic function from the
objective and the starting point to a slope.
-/

open Finset

variable {N : ℕ}

/-- Effective weight of each data point (Eq 8 of the paper), the expression
`Wxi*Wyi/(m**2*Wyi+Wxi)` appearing at source lines 25 and 95. -/
def effWeight (m : ℚ) (Wx Wy : Fin N → ℚ) : Fin N → ℚ :=
  fun i => Wx i * Wy i / (m ^ 2 * Wy i + Wx i)

/-- Weighted mean `np.sum(Wi*v)/np.sum(Wi)` (Eqs 11 and 12, source lines
28-29 and 99-100 and 114-115). -/
def wbar (Wi v : Fin N → ℚ) : ℚ := (∑ i, Wi i * v i) / ∑ i, Wi i

/-- Deviation from the weighted mean (Eqs 9 and 10, source lines 30-31,
101-102 and 116-117). -/
def dev (Wi v : Fin N → ℚ) : Fin N → ℚ := fun i => v i - wbar Wi v

/-- Objective function minimized to find the best slope, transcribed from
`mfunc` (source lines 13-38).  The two array arguments pack a coordinate and
its weight as the two columns of the corresponding numpy input. -/
def mfunc (m : ℚ) (x_in y_in : Fin N → ℚ × ℚ) : ℚ :=
  let x := fun i => (x_in i).1
  let y := fun i => (y_in i).1
  let Wxi := fun i => (x_in i).2
  let Wyi := fun i => (y_in i).2
  let Wi := effWeight m Wxi Wyi
  let xbar := (∑ i, Wi i * x i) / ∑ i, Wi i
  let ybar := (∑ i, Wi i * y i) / ∑ i, Wi i
  let U := fun i => x i - xbar
  let V := fun i => y i - ybar
  let g := m ^ 2 * ∑ i, Wi i ^ 2 * U i * V i / Wxi i +
      m * ∑ i, Wi i ^ 2 * (U i ^ 2 / Wyi i - V i ^ 2 / Wxi i) -
      ∑ i, Wi i ^ 2 * U i * V i / Wyi i
  g ^ 2

/-- Raw (unsquared) minimization criterion of `mfunc`: Eq 19 of the paper,
the expression bound to `g` at source lines 34-35 before it is squared. -/
def grawOf (m : ℚ) (x y Wx Wy : Fin N → ℚ) : ℚ :=
  m ^ 2 * ∑ i, effWeight m Wx Wy i ^ 2 * dev (effWeight m Wx Wy) x i *
      dev (effWeight m Wx Wy) y i / Wx i +
    m * ∑ i, effWeight m Wx Wy i ^ 2 * (dev (effWeight m Wx Wy) x i ^ 2 / Wy i -
      dev (effWeight m Wx Wy) y i ^ 2 / Wx i) -
    ∑ i, effWeight m Wx Wy i ^ 2 * dev (effWeight m Wx Wy) x i *
      dev (effWeight m Wx Wy) y i / Wy i

/-- Initial slope guess from unweighted ordinary least squares
(source line 88). -/
def m0Of (x y : Fin N → ℚ) : ℚ :=
  ((N : ℚ) * ∑ i, x i * y i - (∑ i, x i) * ∑ i, y i) /
    ((N : ℚ) * ∑ i, x i ^ 2 - (∑ i, x i) ^ 2)

/-- Slope returned by the minimizer call at source line 91, with the external
minimizer modelled as a deterministic function of the objective and the
starting point. -/
def mBest (minimize : (ℚ → ℚ) → ℚ → ℚ) (x y Wx Wy : Fin N → ℚ) : ℚ :=
  minimize (fun mm => mfunc mm (fun i => (x i, Wx i)) (fun i => (y i, Wy i)))
    (m0Of x y)

/-- Intercept for a given slope (Eq 13, source line 105). -/
def cOf (m : ℚ) (x y Wx Wy : Fin N → ℚ) : ℚ :=
  wbar (effWeight m Wx Wy) y - m * wbar (effWeight m Wx Wy) x

/-- Sum of weighted residuals (Eq 14, source line 108), computed from the raw
coordinates. -/
def SOf (m : ℚ) (x y Wx Wy : Fin N → ℚ) : ℚ :=
  ∑ i, effWeight m Wx Wy i *
    (dev (effWeight m Wx Wy) y i - m * dev (effWeight m Wx Wy) x i) ^ 2

/-- Per-point adjustment `lam` (Eq 26, source line 111). -/
def lamOf (m : ℚ) (x y Wx Wy : Fin N → ℚ) : Fin N → ℚ :=
  fun i => effWeight m Wx Wy i * (cOf m x y Wx Wy + m * x i - y i)

/-- Bias-corrected x coordinates (Eq 24, source line 112). -/
def xAdj (m : ℚ) (x y Wx Wy : Fin N → ℚ) : Fin N → ℚ :=
  fun i => x i - lamOf m x y Wx Wy i * m / Wx i

/-- Bias-corrected y coordinates (Eq 25, source line 113). -/
def yAdj (m : ℚ) (x y Wx Wy : Fin N → ℚ) : Fin N → ℚ :=
  fun i => y i + lamOf m x y Wx Wy i / Wy i

/-- Eq A11 (source line 122), as a function of the weight and deviation
vectors it is evaluated on. -/
def HHOf (m : ℚ) (Wi V Wx : Fin N → ℚ) : ℚ :=
  -2 * m / (∑ i, Wi i) * ∑ i, Wi i ^ 2 * V i / Wx i

/-- Eq A12 (source line 123). -/
def JJOf (m : ℚ) (Wi U Wx : Fin N → ℚ) : ℚ :=
  -2 * m / (∑ i, Wi i) * ∑ i, Wi i ^ 2 * U i / Wx i

/-- Eq A3 (source line 124). -/
def AAOf (m : ℚ) (Wi U V Wx : Fin N → ℚ) : ℚ :=
  4 * m * ∑ i, Wi i ^ 3 * U i * V i / Wx i ^ 2 -
    (∑ i, Wi i) * HHOf m Wi V Wx * JJOf m Wi U Wx / m

/-- Eq A4 (source lines 125-126). -/
def BBOf (m : ℚ) (Wi U V Wx Wy : Fin N → ℚ) : ℚ :=
  -∑ i, Wi i ^ 2 * (4 * m * Wi i / Wx i * (U i ^ 2 / Wy i - V i ^ 2 / Wx i) -
    2 * V i * HHOf m Wi V Wx / Wx i + 2 * U i * JJOf m Wi U Wx / Wy i)

/-- Eq A5 (source line 127). -/
def CCOf (m : ℚ) (Wi U V Wx Wy : Fin N → ℚ) : ℚ :=
  -∑ i, Wi i ^ 2 / Wy i *
    (4 * m * Wi i * U i * V i / Wx i + V i * JJOf m Wi U Wx + U i * HHOf m Wi V Wx)

/-- Matrix `delmat = delta - repmat(Wj,1,N)/W` built at source lines 128-129:
`repmat(Wj,1,N)` tiles the column vector `Wj` across `N` columns, so the
row-`i`, column-`j` entry of `delmat` is `delta_ij - Wj[i]/W`. -/
def delmatOf (Wj : Fin N → ℚ) (W : ℚ) : Matrix (Fin N) (Fin N) ℚ :=
  Matrix.of fun i j => (if i = j then 1 else 0) - Wj i / W

/-- Eq A6 (source line 130). -/
def DDOf (Wi V Wx : Fin N → ℚ) : Fin N → ℚ :=
  (delmatOf Wi (∑ i, Wi i)).mulVec fun i => Wi i ^ 2 * V i / Wx i

/-- Eq A7 (source line 131). -/
def EEOf (Wi U Wy : Fin N → ℚ) : Fin N → ℚ :=
  fun i => 2 * (delmatOf Wi (∑ k, Wi k)).mulVec (fun k => Wi k ^ 2 * U k / Wy k) i

/-- Eq A8 (source line 132). -/
def FFOf (Wi V Wy : Fin N → ℚ) : Fin N → ℚ :=
  (delmatOf Wi (∑ i, Wi i)).mulVec fun i => Wi i ^ 2 * V i / Wy i

/-- Eq A9 (source line 133). -/
def GGOf (Wi U Wx : Fin N → ℚ) : Fin N → ℚ :=
  (delmatOf Wi (∑ i, Wi i)).mulVec fun i => Wi i ^ 2 * U i / Wx i

/-- Quantity `A` of Eqs 19-20 (source line 134). -/
def AOf (Wi U V Wx : Fin N → ℚ) : ℚ := ∑ i, Wi i ^ 2 * U i * V i / Wx i

/-- Quantity `B` of Eqs 19-20 (source line 135). -/
def BOf (Wi U V Wx Wy : Fin N → ℚ) : ℚ :=
  ∑ i, Wi i ^ 2 * (U i ^ 2 / Wy i - V i ^ 2 / Wx i)

/-- Shared denominator of the slope sensitivities (source lines 136-138). -/
def denomOf (m : ℚ) (Wi U V Wx Wy : Fin N → ℚ) : ℚ :=
  2 * m * AOf Wi U V Wx + BOf Wi U V Wx Wy - AAOf m Wi U V Wx * m ^ 2 +
    BBOf m Wi U V Wx Wy * m - CCOf m Wi U V Wx Wy

/-- Per-point slope sensitivity with respect to x (Eq A1, source line 136). -/
def dmdxOf (m : ℚ) (Wi U V Wx Wy : Fin N → ℚ) : Fin N → ℚ :=
  fun i => -1 * (m ^ 2 * DDOf Wi V Wx i + m * EEOf Wi U Wy i - FFOf Wi V Wy i) /
    denomOf m Wi U V Wx Wy

/-- Per-point slope sensitivity with respect to y (Eq A2, source lines
137-138). -/
def dmdyOf (m : ℚ) (Wi U V Wx Wy : Fin N → ℚ) : Fin N → ℚ :=
  fun i => -1 * (m ^ 2 * GGOf Wi U Wx i - 2 * m * DDOf Wi V Wx i -
    0.5 * EEOf Wi U Wy i) / denomOf m Wi U V Wx Wy

/-- Per-point intercept sensitivity with respect to x (Eq A13, source line
139); `xbar` is the weighted mean of the coordinates the stage is evaluated
on. -/
def dcdxOf (m : ℚ) (Wi U V Wx Wy : Fin N → ℚ) (xbar : ℚ) : Fin N → ℚ :=
  fun i => (HHOf m Wi V Wx - m * JJOf m Wi U Wx - xbar) * dmdxOf m Wi U V Wx Wy i -
    m * Wi i / ∑ k, Wi k

/-- Per-point intercept sensitivity with respect to y (Eq A14, source line
140). -/
def dcdyOf (m : ℚ) (Wi U V Wx Wy : Fin N → ℚ) (xbar : ℚ) : Fin N → ℚ :=
  fun i => (HHOf m Wi V Wx - m * JJOf m Wi U Wx - xbar) * dmdyOf m Wi U V Wx Wy i +
    Wi i / ∑ k, Wi k

/-- End-to-end fit routine, transcribed line by line from `wls2d` (source
lines 41-148).  The returned tuple holds, in order: best-fit slope, best-fit
intercept, slope uncertainty, intercept uncertainty (source lines 144-148). -/
noncomputable def wls2d (minimize : (ℚ → ℚ) → ℚ → ℚ)
    (x y delx dely : Fin N → ℚ) : ℚ × ℚ × ℝ × ℝ :=
  let Wxi : Fin N → ℚ := fun i => 1 / delx i ^ 2
  let Wyi : Fin N → ℚ := fun i => 1 / dely i ^ 2
  let xWxi := fun i => (x i, Wxi i)
  let yWyi := fun i => (y i, Wyi i)
  let m0 := ((N : ℚ) * ∑ i, x i * y i - (∑ i, x i) * ∑ i, y i) /
    ((N : ℚ) * ∑ i, x i ^ 2 - (∑ i, x i) ^ 2)
  let m := minimize (fun mm => mfunc mm xWxi yWyi) m0
  let Wi := effWeight m Wxi Wyi
  let Wj := Wi
  let xbar := (∑ i, Wi i * x i) / ∑ i, Wi i
  let ybar := (∑ i, Wi i * y i) / ∑ i, Wi i
  let U := fun i => x i - xbar
  let V := fun i => y i - ybar
  let c := ybar - m * xbar
  let S := ∑ i, Wi i * (V i - m * U i) ^ 2
  let lam := fun i => Wi i * (c + m * x i - y i)
  let x2 := fun i => x i - lam i * m / Wxi i
  let y2 := fun i => y i + lam i / Wyi i
  let xbar2 := (∑ i, Wi i * x2 i) / ∑ i, Wi i
  let ybar2 := (∑ i, Wi i * y2 i) / ∑ i, Wi i
  let U2 := fun i => x2 i - xbar2
  let V2 := fun i => y2 i - ybar2
  let dmdxj := dmdxOf m Wi U2 V2 Wxi Wyi
  let dmdyj := dmdyOf m Wi U2 V2 Wxi Wyi
  let dcdxj := dcdxOf m Wj U2 V2 Wxi Wyi xbar2
  let dcdyj := dcdyOf m Wj U2 V2 Wxi Wyi xbar2
  let delm : ℝ := Real.sqrt
    ((S / ((N : ℚ) - 2) *
      ∑ i, (1 / Wyi i * dmdyj i ^ 2 + 1 / Wxi i * dmdxj i ^ 2) : ℚ) : ℝ)
  let delc : ℝ := Real.sqrt
    ((S / ((N : ℚ) - 2) *
      ∑ i, (1 / Wyi i * dcdyj i ^ 2 + 1 / Wxi i * dcdxj i ^ 2) : ℚ) : ℝ)
  (m, c, delm, delc)

/-- Minimal model of a numpy array: the flat data buffer together with the
shape field.  In the source, binary arithmetic operations and `np.append`
allocate fresh arrays, an assignment `a.shape = ...` mutates the shape of the
object `a` in place, and an assignment `a = expr` rebinds the local name
without touching the object it previously referred to. -/
structure PyArr where
  data : List ℚ
  shape : List ℕ
  deriving DecidableEq

/-- Reading of `n` scalar entries out of the flat buffer of an array; `len`
of a numpy array is its leading shape entry, and both a 1-D vector of length
`n` and an `(n,1)` column hold the same `n` entries in their flat buffer. -/
def PyArr.vec (a : PyArr) (n : ℕ) : Fin n → ℚ := fun i => a.data.getD i 0

/-- State-passing form of `wls2d` recording the caller-visible effect on the
four argument arrays.  Aliasing trace of the source: lines 74-75 allocate
fresh weight arrays from `delx`, `dely`; lines 78-79 execute
`x.shape = (N,1)` and `y.shape = (N,1)`, mutating the two caller arrays in
place; lines 80-81 mutate only the locally allocated weight arrays; every
later statement allocates a fresh array or rebinds a local name (lines
111-113 rebind the local `x`, `y`), so `delx` and `dely` are returned to the
caller untouched and `x`, `y` keep their data with shape `(N,1)`.  The tuple
holds the fit result followed by the final states of `x`, `y`, `delx`,
`dely`. -/
noncomputable def wls2dSt (minimize : (ℚ → ℚ) → ℚ → ℚ) (x y delx dely : PyArr) :
    (ℚ × ℚ × ℝ × ℝ) × PyArr × PyArr × PyArr × PyArr :=
  let N := x.shape.headD 0
  (wls2d minimize (x.vec N) (y.vec N) (delx.vec N) (dely.vec N),
    ⟨x.data, [N, 1]⟩, ⟨y.data, [N, 1]⟩, delx, dely)

/-- Minimizer model that returns its starting point unchanged: a legitimate
deterministic function of the objective and the starting point. -/
def startMin : (ℚ → ℚ) → ℚ → ℚ := fun _ x0 => x0

/-- Minimizer model that returns `mstar` whenever `mstar` is an exact root of
the (squared, hence nonnegative) objective — in that case `mstar` is a global
minimizer — and otherwise falls back to the starting point. -/
def rootMin (mstar : ℚ) : (ℚ → ℚ) → ℚ → ℚ :=
  fun f x0 => if f mstar = 0 then mstar else x0

/-- Centering matrix whose entries follow the spec's written-out index
formula for comparison: row i, column j entry `delta_ij - Wj[j]/Wtot`. -/
def specDenseM (Wj : Fin N → ℚ) (W : ℚ) : Matrix (Fin N) (Fin N) ℚ :=
  Matrix.of fun i j => (if i = j then 1 else 0) - Wj j / W

/-- Unfolding of `wls2d` through the named stage functions: with `mhat` the
slope returned by the minimizer, the result is the slope, the intercept and
the two delta-method uncertainties, every sensitivity being evaluated on the
bias-corrected coordinates. -/
theorem wls2d_eq (minimize : (ℚ → ℚ) → ℚ → ℚ) (x y delx dely : Fin N → ℚ) :
    wls2d minimize x y delx dely =
      (let Wx : Fin N → ℚ := fun i => 1 / delx i ^ 2
       let Wy : Fin N → ℚ := fun i => 1 / dely i ^ 2
       let mhat := mBest minimize x y Wx Wy
       let Wi := effWeight mhat Wx Wy
       let U2 := dev Wi (xAdj mhat x y Wx Wy)
       let V2 := dev Wi (yAdj mhat x y Wx Wy)
       let xbar2 := wbar Wi (xAdj mhat x y Wx Wy)
       (mhat, cOf mhat x y Wx Wy,
        Real.sqrt ((SOf mhat x y Wx Wy / ((N : ℚ) - 2) *
          ∑ i, (1 / Wy i * dmdyOf mhat Wi U2 V2 Wx Wy i ^ 2 +
            1 / Wx i * dmdxOf mhat Wi U2 V2 Wx Wy i ^ 2) : ℚ) : ℝ),
        Real.sqrt ((SOf mhat x y Wx Wy / ((N : ℚ) - 2) *
          ∑ i, (1 / Wy i * dcdyOf mhat Wi U2 V2 Wx Wy xbar2 i ^ 2 +
            1 / Wx i * dcdxOf mhat Wi U2 V2 Wx Wy xbar2 i ^ 2) : ℚ) : ℝ))) := rfl

/-- Reindexing of a finite sum along a permutation of the data points. -/
theorem sum_perm (e : Equiv.Perm (Fin N)) (f : Fin N → ℚ) :
    (∑ i, f (e i)) = ∑ i, f i :=
  Equiv.sum_comp e f

/-- Cancellation of a common nonzero factor of numerator and denominator. -/
theorem smul_div_smul (s a b : ℚ) (hs : s ≠ 0) : s * a / (s * b) = a / b :=
  mul_div_mul_left a b hs

/-- Extraction of a factor sitting inside a denominator. -/
theorem div_smul_aux (a s b : ℚ) : a / (s * b) = s⁻¹ * (a / b) := by
  rw [div_mul_eq_div_div_swap, div_eq_mul_inv (a / b) s, mul_comm]

/-- Action of the matrix built at source lines 128-129 on a vector: because
its row-i, column-j entry is `delta_ij - Wj[i]/W`, the product with any
vector `v` is the rank-1-adjusted form `v - Wj*sum(v)/W`. -/
theorem delmatOf_mulVec (Wj v : Fin N → ℚ) (W : ℚ) :
    (delmatOf Wj W).mulVec v = fun i => v i - Wj i * (∑ j, v j) / W := by
  funext i
  simp only [delmatOf, Matrix.mulVec, Matrix.dotProduct, Matrix.of_apply, sub_mul,
    ite_mul, one_mul, zero_mul, Finset.sum_sub_distrib, Finset.sum_ite_eq,
    Finset.mem_univ, if_true]
  rw [← Finset.mul_sum, div_mul_eq_mul_div]

/-- C4: for every trial slope and equal-length positive-weight sample, the
objective `mfunc` returns exactly the square of the raw criterion `g_raw`
(Eq 19), hence a non-negative scalar. -/
theorem mfunc_eq_graw_sq (m : ℚ) (x y Wx Wy : Fin N → ℚ) (hN : 1 ≤ N)
    (hWx : ∀ i, 0 < Wx i) (hWy : ∀ i, 0 < Wy i) :
    mfunc m (fun i => (x i, Wx i)) (fun i => (y i, Wy i)) =
      grawOf m x y Wx Wy ^ 2 ∧
      0 ≤ mfunc m (fun i => (x i, Wx i)) (fun i => (y i, Wy i)) :=
  ⟨rfl, by
    show (0 : ℚ) ≤ grawOf m x y Wx Wy ^ 2
    exact sq_nonneg _⟩

/-- Witness for C4 at the concrete sample x = (1,2,3), y = (4,5,7) with unit
weights and trial slope 2. -/
theorem mfunc_eq_graw_sq_witness :
    (1 ≤ 3 ∧ (∀ i : Fin 3, 0 < (1 : ℚ)) ∧ (∀ i : Fin 3, 0 < (1 : ℚ))) ∧
      (mfunc 2 (fun i => ((![1, 2, 3] : Fin 3 → ℚ) i, (1 : ℚ)))
          (fun i => ((![4, 5, 7] : Fin 3 → ℚ) i, (1 : ℚ))) =
        grawOf 2 ![1, 2, 3] ![4, 5, 7] (fun _ => 1) (fun _ => 1) ^ 2 ∧
        0 ≤ mfunc 2 (fun i => ((![1, 2, 3] : Fin 3 → ℚ) i, (1 : ℚ)))
          (fun i => ((![4, 5, 7] : Fin 3 → ℚ) i, (1 : ℚ)))) :=
  ⟨⟨by norm_num, fun i => by norm_num, fun i => by norm_num⟩,
    mfunc_eq_graw_sq 2 ![1, 2, 3] ![4, 5, 7] (fun _ => 1) (fun _ => 1)
      (by norm_num) (fun i => by norm_num) (fun i => by norm_num)⟩

/-- C5: for every finite slope and every point with positive x- and y-weight,
the effective-weight denominator `m^2*Wy[i] + Wx[i]` is strictly positive,
so the effective weight shared by `mfunc` and the post-minimization
recomputation in `wls2d` is defined and strictly positive. -/
theorem effWeight_pos (m : ℚ) (Wx Wy : Fin N → ℚ) (i : Fin N)
    (hx : 0 < Wx i) (hy : 0 < Wy i) :
    0 < m ^ 2 * Wy i + Wx i ∧ 0 < effWeight m Wx Wy i := by
  have hden : 0 < m ^ 2 * Wy i + Wx i :=
    add_pos_of_nonneg_of_pos (mul_nonneg (sq_nonneg m) hy.le) hx
  exact ⟨hden, div_pos (mul_pos hx hy) hden⟩

/-- Witness for C5 at slope 7, weights 3 and 5. -/
theorem effWeight_pos_witness :
    (0 < (3 : ℚ) ∧ 0 < (5 : ℚ)) ∧
      (0 < (7 : ℚ) ^ 2 * 5 + 3 ∧
        0 < effWeight 7 (fun _ => 3) (fun _ => 5) (0 : Fin 1)) :=
  ⟨⟨by norm_num, by norm_num⟩,
    effWeight_pos 7 (fun _ => 3) (fun _ => 5) 0 (by norm_num) (by norm_num)⟩

/-- C1 counterexample: for the positive weight vector (1,2) of length 2, the
matrix with entries `delta_ij - Wj[j]/Wtot` differs from the matrix `delmat`
the code builds (whose entries are `delta_ij - Wj[i]/Wtot`), and its action
on the vector (0,1) disagrees with the rank-1 form `v - Wj*sum(v)/Wtot`: the
spec's two descriptions of the centering operator are not equivalent. -/
theorem specDenseM_ne_delmat :
    (specDenseM (![1, 2] : Fin 2 → ℚ) (∑ i, (![1, 2] : Fin 2 → ℚ) i) ≠
        delmatOf (![1, 2] : Fin 2 → ℚ) (∑ i, (![1, 2] : Fin 2 → ℚ) i)) ∧
      (specDenseM (![1, 2] : Fin 2 → ℚ) (∑ i, (![1, 2] : Fin 2 → ℚ) i)).mulVec
          ![0, 1] 0 ≠
        (![0, 1] : Fin 2 → ℚ) 0 -
          (![1, 2] : Fin 2 → ℚ) 0 * (∑ j, (![0, 1] : Fin 2 → ℚ) j) /
            (∑ i, (![1, 2] : Fin 2 → ℚ) i) := by
  constructor
  · intro h
    have h01 := congrFun (congrFun h 0) 1
    simp [specDenseM, delmatOf, Fin.sum_univ_two] at h01
    norm_num at h01
  · intro h
    simp [specDenseM, Matrix.mulVec, Matrix.dotProduct, Fin.sum_univ_two] at h
    norm_num at h

/-- C1 amended: the dense matrix `delmat` that `wls2d` builds and applies to
produce DD, EE, FF, GG has row-i, column-j entry `delta_ij - Wj[i]/Wtot`
(each COLUMN of the subtracted rank-1 matrix equals `Wj/Wtot`, so the spec's
`Wj[j]` index should read `Wj[i]`); with that correction the dense form and
the rank-1 form `M.v = v - Wj*sum(v)/Wtot` are behaviorally equivalent. -/
theorem delmat_centering (Wj v : Fin N → ℚ) (hN : 1 ≤ N) (hW : ∀ i, 0 < Wj i) :
    delmatOf Wj (∑ i, Wj i) =
        Matrix.of (fun i j => (if i = j then 1 else 0) - Wj i / ∑ k, Wj k) ∧
      (delmatOf Wj (∑ i, Wj i)).mulVec v =
        fun i => v i - Wj i * (∑ j, v j) / ∑ j, Wj j :=
  ⟨rfl, delmatOf_mulVec Wj v (∑ i, Wj i)⟩

/-- Witness for C1 (amended) at the weight vector (1,2) acting on (0,1). -/
theorem delmat_centering_witness :
    (1 ≤ 2 ∧ (∀ i : Fin 2, 0 < (![1, 2] : Fin 2 → ℚ) i)) ∧
      (delmatOf (![1, 2] : Fin 2 → ℚ) (∑ i, (![1, 2] : Fin 2 → ℚ) i) =
          Matrix.of
            (fun i j => (if i = j then 1 else 0) -
              (![1, 2] : Fin 2 → ℚ) i / ∑ k, (![1, 2] : Fin 2 → ℚ) k) ∧
        (delmatOf (![1, 2] : Fin 2 → ℚ) (∑ i, (![1, 2] : Fin 2 → ℚ) i)).mulVec
            ![0, 1] =
          fun i => (![0, 1] : Fin 2 → ℚ) i -
            (![1, 2] : Fin 2 → ℚ) i * (∑ j, (![0, 1] : Fin 2 → ℚ) j) /
              ∑ j, (![1, 2] : Fin 2 → ℚ) j) :=
  ⟨⟨by norm_num, fun i => by fin_cases i <;> norm_num⟩,
    delmat_centering ![1, 2] ![0, 1] (by norm_num)
      (fun i => by fin_cases i <;> norm_num)⟩

/-- C6 counterexample: on the length-2 sample x = (0,1), y = (0,1) with unit
errors (positive sigmas, non-identical x), `wls2d` does not fail and does not
raise any InvalidSampleSize error (no such check exists in the code): the
call completes and returns a full four-element result whose slope is 1 and
whose intercept is 0. -/
theorem wls2d_n2_counterexample :
    (wls2d startMin (![0, 1] : Fin 2 → ℚ) ![0, 1] ![1, 1] ![1, 1]).1 = 1 ∧
      (wls2d startMin (![0, 1] : Fin 2 → ℚ) ![0, 1] ![1, 1] ![1, 1]).2.1 = 0 := by
  constructor
  · simp only [wls2d_eq]
    norm_num [mBest, startMin, m0Of, Fin.sum_univ_two]
  · simp only [wls2d_eq]
    norm_num [mBest, startMin, m0Of, cOf, wbar, effWeight, Fin.sum_univ_two]

/-- C6 amended: `wls2d` performs no sample-size validation.  On every
length-2 sample with positive errors and non-identical x it still returns a
four-element result — slope and intercept computed by the usual formulas —
instead of raising InvalidSampleSize; the `N-2` divisor of the uncertainty
computation is then zero, and under the exact-arithmetic convention that
division by zero yields zero both uncertainty components collapse to
`sqrt 0 = 0` (numpy emits non-finite values there).  N = 3 is the smallest
size making the `N-2` divisor positive. -/
theorem wls2d_n2_no_guard (minimize : (ℚ → ℚ) → ℚ → ℚ) (x y delx dely : Fin 2 → ℚ)
    (hdx : ∀ i, 0 < delx i) (hdy : ∀ i, 0 < dely i) (hx01 : x 0 ≠ x 1) :
    (wls2d minimize x y delx dely).2.2 = ((0 : ℝ), (0 : ℝ)) := by
  simp only [wls2d_eq]
  norm_num

/-- Witness for C6 (amended) at a concrete length-2 sample. -/
theorem wls2d_n2_no_guard_witness :
    ((∀ i : Fin 2, 0 < (![1, 1] : Fin 2 → ℚ) i) ∧
        (![0, 1] : Fin 2 → ℚ) 0 ≠ (![0, 1] : Fin 2 → ℚ) 1) ∧
      (wls2d startMin (![0, 1] : Fin 2 → ℚ) ![2, 3] ![1, 1] ![1, 1]).2.2 =
        ((0 : ℝ), (0 : ℝ)) :=
  ⟨⟨fun i => by fin_cases i <;> norm_num, by norm_num⟩,
    wls2d_n2_no_guard startMin ![0, 1] ![2, 3] ![1, 1] ![1, 1]
      (fun i => by fin_cases i <;> norm_num)
      (fun i => by fin_cases i <;> norm_num) (by norm_num)⟩

/-- C7 counterexample: `wls2d` does not leave caller-owned inputs unchanged:
after the call the caller's 1-D array `x` has been reshaped in place to an
(N,1) column (source line 78), so its final state differs from its initial
state. -/
theorem wls2dSt_mutates_x :
    (wls2dSt startMin ⟨[0, 1, 2], [3]⟩ ⟨[0, 1, 4], [3]⟩ ⟨[1, 1, 1], [3]⟩
        ⟨[1, 1, 1], [3]⟩).2.1 ≠ (⟨[0, 1, 2], [3]⟩ : PyArr) := by
  intro h
  have hs := congrArg PyArr.shape h
  simp [wls2dSt] at hs

/-- C7 amended: the element values of all four caller arrays are preserved
and `delx`, `dely` come back fully untouched, but `wls2d` reshapes the
caller's `x` and `y` in place to (N,1) columns (source lines 78-79), so the
caller-owned inputs are not left completely unchanged. -/
theorem wls2dSt_frame (minimize : (ℚ → ℚ) → ℚ → ℚ) (x y delx dely : PyArr) :
    (wls2dSt minimize x y delx dely).2 =
      (⟨x.data, [x.shape.headD 0, 1]⟩, ⟨y.data, [x.shape.headD 0, 1]⟩,
        delx, dely) :=
  rfl

/-- C9: the fit is deterministic: two calls on equal input values return
equal four-element results, and a second call run in succession on the same
caller arrays (which the first call reshaped in place) also returns exactly
the first call's result. -/
theorem wls2dSt_deterministic (minimize : (ℚ → ℚ) → ℚ → ℚ)
    (x y delx dely a b c d : PyArr) (hx : x = a) (hy : y = b)
    (hdx : delx = c) (hdy : dely = d) :
    (wls2dSt minimize x y delx dely).1 = (wls2dSt minimize a b c d).1 ∧
      (wls2dSt minimize (wls2dSt minimize x y delx dely).2.1
          (wls2dSt minimize x y delx dely).2.2.1
          (wls2dSt minimize x y delx dely).2.2.2.1
          (wls2dSt minimize x y delx dely).2.2.2.2).1 =
        (wls2dSt minimize x y delx dely).1 := by
  subst hx; subst hy; subst hdx; subst hdy
  exact ⟨rfl, rfl⟩

/-- Witness for C9 at a concrete length-3 sample. -/
theorem wls2dSt_deterministic_witness :
    (wls2dSt startMin ⟨[0, 1, 2], [3]⟩ ⟨[1, 1, 2], [3]⟩ ⟨[1, 1, 1], [3]⟩
        ⟨[1, 1, 1], [3]⟩).1 =
      (wls2dSt startMin ⟨[0, 1, 2], [3]⟩ ⟨[1, 1, 2], [3]⟩ ⟨[1, 1, 1], [3]⟩
        ⟨[1, 1, 1], [3]⟩).1 :=
  (wls2dSt_deterministic startMin ⟨[0, 1, 2], [3]⟩ ⟨[1, 1, 2], [3]⟩
    ⟨[1, 1, 1], [3]⟩ ⟨[1, 1, 1], [3]⟩ ⟨[0, 1, 2], [3]⟩ ⟨[1, 1, 2], [3]⟩
    ⟨[1, 1, 1], [3]⟩ ⟨[1, 1, 1], [3]⟩ rfl rfl rfl rfl).1

/-- C2: for every sample of size at least 3 with positive errors in both
coordinates, and with `mhat` the slope returned by the minimizer, `wls2d`
returns the four outputs in the order slope, intercept, slope uncertainty,
intercept uncertainty, where the slope uncertainty equals
`sqrt(S/(N-2) * sum(dm_dy^2/Wy + dm_dx^2/Wx))` and the intercept uncertainty
equals `sqrt(S/(N-2) * sum(dc_dy^2/Wy + dc_dx^2/Wx))`, with S, the
sensitivities and the weights as in the post-minimization stage. -/
theorem wls2d_uncertainties (minimize : (ℚ → ℚ) → ℚ → ℚ)
    (x y delx dely : Fin N → ℚ) (hN : 3 ≤ N)
    (hdx : ∀ i, 0 < delx i) (hdy : ∀ i, 0 < dely i) :
    wls2d minimize x y delx dely =
      (let Wx : Fin N → ℚ := fun i => 1 / delx i ^ 2
       let Wy : Fin N → ℚ := fun i => 1 / dely i ^ 2
       let mhat := mBest minimize x y Wx Wy
       let Wi := effWeight mhat Wx Wy
       let U2 := dev Wi (xAdj mhat x y Wx Wy)
       let V2 := dev Wi (yAdj mhat x y Wx Wy)
       let xbar2 := wbar Wi (xAdj mhat x y Wx Wy)
       (mhat, cOf mhat x y Wx Wy,
        Real.sqrt ((SOf mhat x y Wx Wy / ((N : ℚ) - 2) *
          ∑ i, (dmdyOf mhat Wi U2 V2 Wx Wy i ^ 2 / Wy i +
            dmdxOf mhat Wi U2 V2 Wx Wy i ^ 2 / Wx i) : ℚ) : ℝ),
        Real.sqrt ((SOf mhat x y Wx Wy / ((N : ℚ) - 2) *
          ∑ i, (dcdyOf mhat Wi U2 V2 Wx Wy xbar2 i ^ 2 / Wy i +
            dcdxOf mhat Wi U2 V2 Wx Wy xbar2 i ^ 2 / Wx i) : ℚ) : ℝ))) := by
  rw [wls2d_eq]
  have hsum : ∀ (W1 W2 a b : Fin N → ℚ),
      (∑ i, (1 / W1 i * a i ^ 2 + 1 / W2 i * b i ^ 2)) =
        ∑ i, (a i ^ 2 / W1 i + b i ^ 2 / W2 i) :=
    fun W1 W2 a b => Finset.sum_congr rfl fun i _ => by ring
  simp only [hsum]

/-- Witness for C2 at the concrete sample x = (0,1,2), y = (0,1,-1) with
unit errors: the first returned component is the minimizer slope. -/
theorem wls2d_uncertainties_witness :
    (3 ≤ 3 ∧ (∀ i : Fin 3, 0 < (1 : ℚ)) ∧ (∀ i : Fin 3, 0 < (1 : ℚ))) ∧
      (wls2d startMin (![0, 1, 2] : Fin 3 → ℚ) ![0, 1, -1]
          (fun _ => 1) (fun _ => 1)).1 =
        mBest startMin (![0, 1, 2] : Fin 3 → ℚ) ![0, 1, -1]
          (fun _ => 1 / (1 : ℚ) ^ 2) (fun _ => 1 / (1 : ℚ) ^ 2) :=
  ⟨⟨le_refl 3, fun i => by norm_num, fun i => by norm_num⟩,
    congrArg Prod.fst
      (wls2d_uncertainties startMin ![0, 1, 2] ![0, 1, -1] (fun _ => 1)
        (fun _ => 1) (le_refl 3) (fun i => by norm_num) (fun i => by norm_num))⟩

/-- C3: for every valid sample, `wls2d` computes the per-point adjustments
`lam[i] = W[i]*(c + m*x[i] - y[i])`, replaces the coordinates by
`x[i] - lam[i]*m/Wx[i]` and `y[i] + lam[i]/Wy[i]`, recomputes the weighted
means and deviations from the adjusted coordinates, and evaluates every
subsequent derivative quantity (HH, JJ, AA, BB, CC, DD, EE, FF, GG, A, B and
the four sensitivity vectors, all folded inside `dmdxOf`, `dmdyOf`,
`dcdxOf`, `dcdyOf`) on the adjusted coordinates rather than the raw
inputs. -/
theorem wls2d_adjusted_coords (minimize : (ℚ → ℚ) → ℚ → ℚ)
    (x y delx dely : Fin N → ℚ) (hN : 3 ≤ N)
    (hdx : ∀ i, 0 < delx i) (hdy : ∀ i, 0 < dely i) :
    wls2d minimize x y delx dely =
      (let Wx : Fin N → ℚ := fun i => 1 / delx i ^ 2
       let Wy : Fin N → ℚ := fun i => 1 / dely i ^ 2
       let mhat := mBest minimize x y Wx Wy
       let Wi := effWeight mhat Wx Wy
       let c := cOf mhat x y Wx Wy
       let lam := fun i => Wi i * (c + mhat * x i - y i)
       let xa := fun i => x i - lam i * mhat / Wx i
       let ya := fun i => y i + lam i / Wy i
       let U2 := dev Wi xa
       let V2 := dev Wi ya
       let xbar2 := wbar Wi xa
       (mhat, c,
        Real.sqrt ((SOf mhat x y Wx Wy / ((N : ℚ) - 2) *
          ∑ i, (1 / Wy i * dmdyOf mhat Wi U2 V2 Wx Wy i ^ 2 +
            1 / Wx i * dmdxOf mhat Wi U2 V2 Wx Wy i ^ 2) : ℚ) : ℝ),
        Real.sqrt ((SOf mhat x y Wx Wy / ((N : ℚ) - 2) *
          ∑ i, (1 / Wy i * dcdyOf mhat Wi U2 V2 Wx Wy xbar2 i ^ 2 +
            1 / Wx i * dcdxOf mhat Wi U2 V2 Wx Wy xbar2 i ^ 2) : ℚ) : ℝ))) := by
  rw [wls2d_eq]
  rfl

/-- Witness for C3 at the concrete sample x = (0,1,2), y = (0,1,-1) with
unit errors: the second returned component is the intercept computed from
the final slope. -/
theorem wls2d_adjusted_coords_witness :
    (3 ≤ 3 ∧ (∀ i : Fin 3, 0 < (1 : ℚ)) ∧ (∀ i : Fin 3, 0 < (1 : ℚ))) ∧
      (wls2d startMin (![0, 1, 2] : Fin 3 → ℚ) ![0, 1, -1]
          (fun _ => 1) (fun _ => 1)).2.1 =
        cOf (mBest startMin (![0, 1, 2] : Fin 3 → ℚ) ![0, 1, -1]
            (fun _ => 1 / (1 : ℚ) ^ 2) (fun _ => 1 / (1 : ℚ) ^ 2))
          ![0, 1, 2] ![0, 1, -1] (fun _ => 1 / (1 : ℚ) ^ 2)
          (fun _ => 1 / (1 : ℚ) ^ 2) :=
  ⟨⟨le_refl 3, fun i => by norm_num, fun i => by norm_num⟩,
    congrArg (fun p => p.2.1)
      (wls2d_adjusted_coords startMin ![0, 1, 2] ![0, 1, -1] (fun _ => 1)
        (fun _ => 1) (le_refl 3) (fun i => by norm_num) (fun i => by norm_num))⟩

/-- Permutation equivariance of the effective weights. -/
theorem effWeight_comp (m : ℚ) (e : Equiv.Perm (Fin N)) (Wx Wy : Fin N → ℚ) :
    effWeight m (Wx ∘ e) (Wy ∘ e) = effWeight m Wx Wy ∘ e := rfl

/-- Permutation invariance of the total weight. -/
theorem sumW_comp (e : Equiv.Perm (Fin N)) (Wi : Fin N → ℚ) :
    (∑ i, (Wi ∘ e) i) = ∑ i, Wi i := by
  simp only [Function.comp_apply]
  exact sum_perm e Wi

/-- Permutation invariance of the weighted mean. -/
theorem wbar_comp (e : Equiv.Perm (Fin N)) (Wi v : Fin N → ℚ) :
    wbar (Wi ∘ e) (v ∘ e) = wbar Wi v := by
  unfold wbar
  simp only [Function.comp_apply]
  rw [sum_perm e (fun j => Wi j * v j), sum_perm e Wi]

/-- Permutation equivariance of the deviations from the weighted mean. -/
theorem dev_comp (e : Equiv.Perm (Fin N)) (Wi v : Fin N → ℚ) :
    dev (Wi ∘ e) (v ∘ e) = dev Wi v ∘ e := by
  funext i
  simp only [dev, Function.comp_apply, wbar_comp]

/-- Permutation invariance of the raw minimization criterion. -/
theorem grawOf_comp (m : ℚ) (e : Equiv.Perm (Fin N)) (x y Wx Wy : Fin N → ℚ) :
    grawOf m (x ∘ e) (y ∘ e) (Wx ∘ e) (Wy ∘ e) = grawOf m x y Wx Wy := by
  unfold grawOf
  rw [effWeight_comp, dev_comp e (effWeight m Wx Wy) x, dev_comp e (effWeight m Wx Wy) y]
  simp only [Function.comp_apply]
  rw [sum_perm e (fun j => effWeight m Wx Wy j ^ 2 * dev (effWeight m Wx Wy) x j *
        dev (effWeight m Wx Wy) y j / Wx j),
    sum_perm e (fun j => effWeight m Wx Wy j ^ 2 * (dev (effWeight m Wx Wy) x j ^ 2 / Wy j -
        dev (effWeight m Wx Wy) y j ^ 2 / Wx j)),
    sum_perm e (fun j => effWeight m Wx Wy j ^ 2 * dev (effWeight m Wx Wy) x j *
        dev (effWeight m Wx Wy) y j / Wy j)]

/-- Permutation invariance of the objective function. -/
theorem mfunc_comp (m : ℚ) (e : Equiv.Perm (Fin N)) (x y Wx Wy : Fin N → ℚ) :
    mfunc m (fun i => ((x ∘ e) i, (Wx ∘ e) i)) (fun i => ((y ∘ e) i, (Wy ∘ e) i)) =
      mfunc m (fun i => (x i, Wx i)) (fun i => (y i, Wy i)) := by
  have h1 : mfunc m (fun i => ((x ∘ e) i, (Wx ∘ e) i))
      (fun i => ((y ∘ e) i, (Wy ∘ e) i)) =
      grawOf m (x ∘ e) (y ∘ e) (Wx ∘ e) (Wy ∘ e) ^ 2 := rfl
  have h2 : mfunc m (fun i => (x i, Wx i)) (fun i => (y i, Wy i)) =
      grawOf m x y Wx Wy ^ 2 := rfl
  rw [h1, h2, grawOf_comp]

/-- Permutation invariance of the unweighted initial slope guess. -/
theorem m0Of_comp (e : Equiv.Perm (Fin N)) (x y : Fin N → ℚ) :
    m0Of (x ∘ e) (y ∘ e) = m0Of x y := by
  unfold m0Of
  simp only [Function.comp_apply]
  rw [sum_perm e (fun j => x j * y j), sum_perm e x, sum_perm e y,
    sum_perm e (fun j => x j ^ 2)]

/-- Permutation invariance of the minimizer output: a permutation of the data
points leaves the objective function and the starting point literally
unchanged. -/
theorem mBest_comp (minimize : (ℚ → ℚ) → ℚ → ℚ) (e : Equiv.Perm (Fin N))
    (x y Wx Wy : Fin N → ℚ) :
    mBest minimize (x ∘ e) (y ∘ e) (Wx ∘ e) (Wy ∘ e) = mBest minimize x y Wx Wy := by
  unfold mBest
  rw [m0Of_comp,
    show (fun mm => mfunc mm (fun i => ((x ∘ e) i, (Wx ∘ e) i))
        (fun i => ((y ∘ e) i, (Wy ∘ e) i))) =
      fun mm => mfunc mm (fun i => (x i, Wx i)) (fun i => (y i, Wy i)) from
      funext fun mm => mfunc_comp mm e x y Wx Wy]

/-- Permutation invariance of the intercept. -/
theorem cOf_comp (m : ℚ) (e : Equiv.Perm (Fin N)) (x y Wx Wy : Fin N → ℚ) :
    cOf m (x ∘ e) (y ∘ e) (Wx ∘ e) (Wy ∘ e) = cOf m x y Wx Wy := by
  unfold cOf
  rw [effWeight_comp, wbar_comp, wbar_comp]

/-- Permutation invariance of the weighted residual sum. -/
theorem SOf_comp (m : ℚ) (e : Equiv.Perm (Fin N)) (x y Wx Wy : Fin N → ℚ) :
    SOf m (x ∘ e) (y ∘ e) (Wx ∘ e) (Wy ∘ e) = SOf m x y Wx Wy := by
  unfold SOf
  rw [effWeight_comp, dev_comp e (effWeight m Wx Wy) x, dev_comp e (effWeight m Wx Wy) y]
  simp only [Function.comp_apply]
  rw [sum_perm e (fun j => effWeight m Wx Wy j *
    (dev (effWeight m Wx Wy) y j - m * dev (effWeight m Wx Wy) x j) ^ 2)]

/-- Permutation equivariance of the per-point adjustment. -/
theorem lamOf_comp (m : ℚ) (e : Equiv.Perm (Fin N)) (x y Wx Wy : Fin N → ℚ) :
    lamOf m (x ∘ e) (y ∘ e) (Wx ∘ e) (Wy ∘ e) = lamOf m x y Wx Wy ∘ e := by
  funext i
  simp only [lamOf, effWeight_comp, cOf_comp, Function.comp_apply]

/-- Permutation equivariance of the bias-corrected x coordinates. -/
theorem xAdj_comp (m : ℚ) (e : Equiv.Perm (Fin N)) (x y Wx Wy : Fin N → ℚ) :
    xAdj m (x ∘ e) (y ∘ e) (Wx ∘ e) (Wy ∘ e) = xAdj m x y Wx Wy ∘ e := by
  funext i
  simp only [xAdj, lamOf_comp, Function.comp_apply]

/-- Permutation equivariance of the bias-corrected y coordinates. -/
theorem yAdj_comp (m : ℚ) (e : Equiv.Perm (Fin N)) (x y Wx Wy : Fin N → ℚ) :
    yAdj m (x ∘ e) (y ∘ e) (Wx ∘ e) (Wy ∘ e) = yAdj m x y Wx Wy ∘ e := by
  funext i
  simp only [yAdj, lamOf_comp, Function.comp_apply]

/-- Permutation invariance of HH. -/
theorem HHOf_comp (m : ℚ) (e : Equiv.Perm (Fin N)) (Wi V Wx : Fin N → ℚ) :
    HHOf m (Wi ∘ e) (V ∘ e) (Wx ∘ e) = HHOf m Wi V Wx := by
  unfold HHOf
  simp only [Function.comp_apply]
  rw [sum_perm e Wi, sum_perm e (fun j => Wi j ^ 2 * V j / Wx j)]

/-- Permutation invariance of JJ. -/
theorem JJOf_comp (m : ℚ) (e : Equiv.Perm (Fin N)) (Wi U Wx : Fin N → ℚ) :
    JJOf m (Wi ∘ e) (U ∘ e) (Wx ∘ e) = JJOf m Wi U Wx := by
  unfold JJOf
  simp only [Function.comp_apply]
  rw [sum_perm e Wi, sum_perm e (fun j => Wi j ^ 2 * U j / Wx j)]

/-- Permutation invariance of AA. -/
theorem AAOf_comp (m : ℚ) (e : Equiv.Perm (Fin N)) (Wi U V Wx : Fin N → ℚ) :
    AAOf m (Wi ∘ e) (U ∘ e) (V ∘ e) (Wx ∘ e) = AAOf m Wi U V Wx := by
  unfold AAOf
  rw [HHOf_comp, JJOf_comp]
  simp only [Function.comp_apply]
  rw [sum_perm e Wi, sum_perm e (fun j => Wi j ^ 3 * U j * V j / Wx j ^ 2)]

/-- Permutation invariance of BB. -/
theorem BBOf_comp (m : ℚ) (e : Equiv.Perm (Fin N)) (Wi U V Wx Wy : Fin N → ℚ) :
    BBOf m (Wi ∘ e) (U ∘ e) (V ∘ e) (Wx ∘ e) (Wy ∘ e) = BBOf m Wi U V Wx Wy := by
  unfold BBOf
  rw [HHOf_comp, JJOf_comp]
  simp only [Function.comp_apply]
  rw [sum_perm e (fun j => Wi j ^ 2 * (4 * m * Wi j / Wx j * (U j ^ 2 / Wy j - V j ^ 2 / Wx j) -
    2 * V j * HHOf m Wi V Wx / Wx j + 2 * U j * JJOf m Wi U Wx / Wy j))]

/-- Permutation invariance of CC. -/
theorem CCOf_comp (m : ℚ) (e : Equiv.Perm (Fin N)) (Wi U V Wx Wy : Fin N → ℚ) :
    CCOf m (Wi ∘ e) (U ∘ e) (V ∘ e) (Wx ∘ e) (Wy ∘ e) = CCOf m Wi U V Wx Wy := by
  unfold CCOf
  rw [HHOf_comp, JJOf_comp]
  simp only [Function.comp_apply]
  rw [sum_perm e (fun j => Wi j ^ 2 / Wy j *
    (4 * m * Wi j * U j * V j / Wx j + V j * JJOf m Wi U Wx + U j * HHOf m Wi V Wx))]

/-- Permutation invariance of A. -/
theorem AOf_comp (e : Equiv.Perm (Fin N)) (Wi U V Wx : Fin N → ℚ) :
    AOf (Wi ∘ e) (U ∘ e) (V ∘ e) (Wx ∘ e) = AOf Wi U V Wx := by
  unfold AOf
  simp only [Function.comp_apply]
  rw [sum_perm e (fun j => Wi j ^ 2 * U j * V j / Wx j)]

/-- Permutation invariance of B. -/
theorem BOf_comp (e : Equiv.Perm (Fin N)) (Wi U V Wx Wy : Fin N → ℚ) :
    BOf (Wi ∘ e) (U ∘ e) (V ∘ e) (Wx ∘ e) (Wy ∘ e) = BOf Wi U V Wx Wy := by
  unfold BOf
  simp only [Function.comp_apply]
  rw [sum_perm e (fun j => Wi j ^ 2 * (U j ^ 2 / Wy j - V j ^ 2 / Wx j))]

/-- Permutation invariance of the sensitivity denominator. -/
theorem denomOf_comp (m : ℚ) (e : Equiv.Perm (Fin N)) (Wi U V Wx Wy : Fin N → ℚ) :
    denomOf m (Wi ∘ e) (U ∘ e) (V ∘ e) (Wx ∘ e) (Wy ∘ e) = denomOf m Wi U V Wx Wy := by
  unfold denomOf
  rw [AOf_comp, BOf_comp, AAOf_comp, BBOf_comp, CCOf_comp]

/-- Permutation equivariance of DD. -/
theorem DDOf_comp (e : Equiv.Perm (Fin N)) (Wi V Wx : Fin N → ℚ) :
    DDOf (Wi ∘ e) (V ∘ e) (Wx ∘ e) = DDOf Wi V Wx ∘ e := by
  funext i
  simp only [DDOf, delmatOf_mulVec, Function.comp_apply]
  rw [sum_perm e (fun j => Wi j ^ 2 * V j / Wx j), sum_perm e Wi]

/-- Permutation equivariance of EE. -/
theorem EEOf_comp (e : Equiv.Perm (Fin N)) (Wi U Wy : Fin N → ℚ) :
    EEOf (Wi ∘ e) (U ∘ e) (Wy ∘ e) = EEOf Wi U Wy ∘ e := by
  funext i
  simp only [EEOf, delmatOf_mulVec, Function.comp_apply]
  rw [sum_perm e (fun j => Wi j ^ 2 * U j / Wy j), sum_perm e Wi]

/-- Permutation equivariance of FF. -/
theorem FFOf_comp (e : Equiv.Perm (Fin N)) (Wi V Wy : Fin N → ℚ) :
    FFOf (Wi ∘ e) (V ∘ e) (Wy ∘ e) = FFOf Wi V Wy ∘ e := by
  funext i
  simp only [FFOf, delmatOf_mulVec, Function.comp_apply]
  rw [sum_perm e (fun j => Wi j ^ 2 * V j / Wy j), sum_perm e Wi]

/-- Permutation equivariance of GG. -/
theorem GGOf_comp (e : Equiv.Perm (Fin N)) (Wi U Wx : Fin N → ℚ) :
    GGOf (Wi ∘ e) (U ∘ e) (Wx ∘ e) = GGOf Wi U Wx ∘ e := by
  funext i
  simp only [GGOf, delmatOf_mulVec, Function.comp_apply]
  rw [sum_perm e (fun j => Wi j ^ 2 * U j / Wx j), sum_perm e Wi]

/-- Permutation equivariance of the slope sensitivity in x. -/
theorem dmdxOf_comp (m : ℚ) (e : Equiv.Perm (Fin N)) (Wi U V Wx Wy : Fin N → ℚ) :
    dmdxOf m (Wi ∘ e) (U ∘ e) (V ∘ e) (Wx ∘ e) (Wy ∘ e) = dmdxOf m Wi U V Wx Wy ∘ e := by
  funext i
  simp only [dmdxOf, DDOf_comp, EEOf_comp, FFOf_comp, denomOf_comp, Function.comp_apply]

/-- Permutation equivariance of the slope sensitivity in y. -/
theorem dmdyOf_comp (m : ℚ) (e : Equiv.Perm (Fin N)) (Wi U V Wx Wy : Fin N → ℚ) :
    dmdyOf m (Wi ∘ e) (U ∘ e) (V ∘ e) (Wx ∘ e) (Wy ∘ e) = dmdyOf m Wi U V Wx Wy ∘ e := by
  funext i
  simp only [dmdyOf, GGOf_comp, DDOf_comp, EEOf_comp, denomOf_comp, Function.comp_apply]

/-- Permutation equivariance of the intercept sensitivity in x. -/
theorem dcdxOf_comp (m : ℚ) (e : Equiv.Perm (Fin N)) (Wi U V Wx Wy : Fin N → ℚ)
    (xbar : ℚ) :
    dcdxOf m (Wi ∘ e) (U ∘ e) (V ∘ e) (Wx ∘ e) (Wy ∘ e) xbar =
      dcdxOf m Wi U V Wx Wy xbar ∘ e := by
  funext i
  simp only [dcdxOf, HHOf_comp, JJOf_comp, dmdxOf_comp, Function.comp_apply]
  rw [sum_perm e Wi]

/-- Permutation equivariance of the intercept sensitivity in y. -/
theorem dcdyOf_comp (m : ℚ) (e : Equiv.Perm (Fin N)) (Wi U V Wx Wy : Fin N → ℚ)
    (xbar : ℚ) :
    dcdyOf m (Wi ∘ e) (U ∘ e) (V ∘ e) (Wx ∘ e) (Wy ∘ e) xbar =
      dcdyOf m Wi U V Wx Wy xbar ∘ e := by
  funext i
  simp only [dcdyOf, HHOf_comp, JJOf_comp, dmdyOf_comp, Function.comp_apply]
  rw [sum_perm e Wi]

/-- C10: the fit is invariant under reordering of the data points: permuting
the four input arrays simultaneously leaves all four outputs of `wls2d`
unchanged, because the objective and every post-minimization quantity depend
on the points only through index-wise sums, and the centering operator
commutes with a simultaneous permutation. -/
theorem wls2d_perm (minimize : (ℚ → ℚ) → ℚ → ℚ) (e : Equiv.Perm (Fin N))
    (x y delx dely : Fin N → ℚ) (hN : 3 ≤ N)
    (hdx : ∀ i, 0 < delx i) (hdy : ∀ i, 0 < dely i) :
    wls2d minimize (x ∘ e) (y ∘ e) (delx ∘ e) (dely ∘ e) =
      wls2d minimize x y delx dely := by
  rw [wls2d_eq, wls2d_eq]
  have hc : ∀ v : Fin N → ℚ, (fun i => 1 / (v ∘ e) i ^ 2) = (fun i => 1 / v i ^ 2) ∘ e :=
    fun v => rfl
  have hdel : ∀ (a b : Fin N → ℚ),
      (∑ i, (1 / (1 / (dely ∘ e) i ^ 2) * ((a ∘ e) i) ^ 2 +
        1 / (1 / (delx ∘ e) i ^ 2) * ((b ∘ e) i) ^ 2)) =
        ∑ i, (1 / (1 / dely i ^ 2) * a i ^ 2 + 1 / (1 / delx i ^ 2) * b i ^ 2) := by
    intro a b
    simp only [Function.comp_apply]
    exact sum_perm e (fun j => 1 / (1 / dely j ^ 2) * a j ^ 2 +
      1 / (1 / delx j ^ 2) * b j ^ 2)
  simp only [hc, mBest_comp, effWeight_comp, xAdj_comp, yAdj_comp, dev_comp,
    wbar_comp, cOf_comp, SOf_comp, dmdxOf_comp, dmdyOf_comp, dcdxOf_comp,
    dcdyOf_comp, hdel]

/-- Witness for C10 at the transposition of the first two points of the
sample x = (0,1,2), y = (0,1,-1) with unit errors. -/
theorem wls2d_perm_witness :
    (3 ≤ 3 ∧ (∀ i : Fin 3, 0 < (1 : ℚ)) ∧ (∀ i : Fin 3, 0 < (1 : ℚ))) ∧
      wls2d startMin ((![0, 1, 2] : Fin 3 → ℚ) ∘ Equiv.swap 0 1)
          ((![0, 1, -1] : Fin 3 → ℚ) ∘ Equiv.swap 0 1)
          ((fun _ => 1) ∘ Equiv.swap 0 1) ((fun _ => 1) ∘ Equiv.swap 0 1) =
        wls2d startMin ![0, 1, 2] ![0, 1, -1] (fun _ => 1) (fun _ => 1) :=
  ⟨⟨le_refl 3, fun i => by norm_num, fun i => by norm_num⟩,
    wls2d_perm startMin (Equiv.swap 0 1) ![0, 1, 2] ![0, 1, -1]
      (fun _ => 1) (fun _ => 1) (le_refl 3)
      (fun i => by norm_num) (fun i => by norm_num)⟩
theorem effWeight_smul (m s : ℚ) (hs : s ≠ 0) (Wx Wy : Fin N → ℚ) :
    effWeight m (fun i => s * Wx i) (fun i => s * Wy i) =
      fun i => s * effWeight m Wx Wy i := by
  funext i
  unfold effWeight
  rw [show m ^ 2 * (s * Wy i) + s * Wx i = s * (m ^ 2 * Wy i + Wx i) by ring,
    show s * Wx i * (s * Wy i) = s * (s * (Wx i * Wy i)) by ring,
    smul_div_smul _ _ _ hs, mul_div_assoc]

theorem wbar_smul (s : ℚ) (hs : s ≠ 0) (Wi v : Fin N → ℚ) :
    wbar (fun i => s * Wi i) v = wbar Wi v := by
  unfold wbar
  rw [show (∑ i, s * Wi i * v i) = s * ∑ i, Wi i * v i by
      rw [Finset.mul_sum]; exact Finset.sum_congr rfl fun i _ => by ring,
    show (∑ i, s * Wi i) = s * ∑ i, Wi i from (Finset.mul_sum _ _ _).symm,
    smul_div_smul _ _ _ hs]

theorem dev_smul (s : ℚ) (hs : s ≠ 0) (Wi v : Fin N → ℚ) :
    dev (fun i => s * Wi i) v = dev Wi v := by
  funext i
  simp only [dev, wbar_smul s hs]

theorem grawOf_smul (m s : ℚ) (hs : s ≠ 0) (x y Wx Wy : Fin N → ℚ)
    (hWx : ∀ i, Wx i ≠ 0) (hWy : ∀ i, Wy i ≠ 0) :
    grawOf m x y (fun i => s * Wx i) (fun i => s * Wy i) =
      s * grawOf m x y Wx Wy := by
  unfold grawOf
  simp only [effWeight_smul m s hs, dev_smul s hs]
  rw [show (∑ i, (s * effWeight m Wx Wy i) ^ 2 * dev (effWeight m Wx Wy) x i *
        dev (effWeight m Wx Wy) y i / (s * Wx i)) =
      s * ∑ i, effWeight m Wx Wy i ^ 2 * dev (effWeight m Wx Wy) x i *
        dev (effWeight m Wx Wy) y i / Wx i by
      rw [Finset.mul_sum]
      refine Finset.sum_congr rfl fun i _ => ?_
      have h1 := hWx i
      field_simp
      ring,
    show (∑ i, (s * effWeight m Wx Wy i) ^ 2 * (dev (effWeight m Wx Wy) x i ^ 2 / (s * Wy i) -
        dev (effWeight m Wx Wy) y i ^ 2 / (s * Wx i))) =
      s * ∑ i, effWeight m Wx Wy i ^ 2 * (dev (effWeight m Wx Wy) x i ^ 2 / Wy i -
        dev (effWeight m Wx Wy) y i ^ 2 / Wx i) by
      rw [Finset.mul_sum]
      refine Finset.sum_congr rfl fun i _ => ?_
      have h1 := hWx i
      have h2 := hWy i
      field_simp
      ring,
    show (∑ i, (s * effWeight m Wx Wy i) ^ 2 * dev (effWeight m Wx Wy) x i *
        dev (effWeight m Wx Wy) y i / (s * Wy i)) =
      s * ∑ i, effWeight m Wx Wy i ^ 2 * dev (effWeight m Wx Wy) x i *
        dev (effWeight m Wx Wy) y i / Wy i by
      rw [Finset.mul_sum]
      refine Finset.sum_congr rfl fun i _ => ?_
      have h2 := hWy i
      field_simp
      ring]
  ring

theorem mfunc_smul (m s : ℚ) (hs : s ≠ 0) (x y Wx Wy : Fin N → ℚ)
    (hWx : ∀ i, Wx i ≠ 0) (hWy : ∀ i, Wy i ≠ 0) :
    mfunc m (fun i => (x i, s * Wx i)) (fun i => (y i, s * Wy i)) =
      s ^ 2 * mfunc m (fun i => (x i, Wx i)) (fun i => (y i, Wy i)) := by
  have h1 : mfunc m (fun i => (x i, s * Wx i)) (fun i => (y i, s * Wy i)) =
      grawOf m x y (fun i => s * Wx i) (fun i => s * Wy i) ^ 2 := rfl
  have h2 : mfunc m (fun i => (x i, Wx i)) (fun i => (y i, Wy i)) =
      grawOf m x y Wx Wy ^ 2 := rfl
  rw [h1, h2, grawOf_smul m s hs x y Wx Wy hWx hWy]
  ring

theorem cOf_smul (m s : ℚ) (hs : s ≠ 0) (x y Wx Wy : Fin N → ℚ) :
    cOf m x y (fun i => s * Wx i) (fun i => s * Wy i) = cOf m x y Wx Wy := by
  unfold cOf
  simp only [effWeight_smul m s hs, wbar_smul s hs]

theorem SOf_smul (m s : ℚ) (hs : s ≠ 0) (x y Wx Wy : Fin N → ℚ) :
    SOf m x y (fun i => s * Wx i) (fun i => s * Wy i) = s * SOf m x y Wx Wy := by
  unfold SOf
  simp only [effWeight_smul m s hs, dev_smul s hs]
  rw [Finset.mul_sum]
  exact Finset.sum_congr rfl fun i _ => by ring

theorem lamOf_smul (m s : ℚ) (hs : s ≠ 0) (x y Wx Wy : Fin N → ℚ) :
    lamOf m x y (fun i => s * Wx i) (fun i => s * Wy i) =
      fun i => s * lamOf m x y Wx Wy i := by
  funext i
  simp only [lamOf, effWeight_smul m s hs, cOf_smul m s hs]
  ring

theorem xAdj_smul (m s : ℚ) (hs : s ≠ 0) (x y Wx Wy : Fin N → ℚ) :
    xAdj m x y (fun i => s * Wx i) (fun i => s * Wy i) = xAdj m x y Wx Wy := by
  funext i
  simp only [xAdj, lamOf_smul m s hs]
  rw [show s * lamOf m x y Wx Wy i * m = s * (lamOf m x y Wx Wy i * m) by ring,
    smul_div_smul _ _ _ hs]

theorem yAdj_smul (m s : ℚ) (hs : s ≠ 0) (x y Wx Wy : Fin N → ℚ) :
    yAdj m x y (fun i => s * Wx i) (fun i => s * Wy i) = yAdj m x y Wx Wy := by
  funext i
  simp only [yAdj, lamOf_smul m s hs]
  rw [smul_div_smul _ _ _ hs]

theorem HHOf_smul (m s : ℚ) (hs : s ≠ 0) (Wi V Wx : Fin N → ℚ)
    (hWx : ∀ i, Wx i ≠ 0) :
    HHOf m (fun i => s * Wi i) V (fun i => s * Wx i) = HHOf m Wi V Wx := by
  unfold HHOf
  rw [show (∑ i, s * Wi i) = s * ∑ i, Wi i from (Finset.mul_sum _ _ _).symm,
    show (∑ i, (s * Wi i) ^ 2 * V i / (s * Wx i)) = s * ∑ i, Wi i ^ 2 * V i / Wx i by
      rw [Finset.mul_sum]
      refine Finset.sum_congr rfl fun i _ => ?_
      have h1 := hWx i
      field_simp
      ring,
    div_mul_eq_mul_div, div_mul_eq_mul_div,
    show -2 * m * (s * ∑ i, Wi i ^ 2 * V i / Wx i) =
      s * (-2 * m * ∑ i, Wi i ^ 2 * V i / Wx i) by ring,
    smul_div_smul _ _ _ hs]

theorem JJOf_smul (m s : ℚ) (hs : s ≠ 0) (Wi U Wx : Fin N → ℚ)
    (hWx : ∀ i, Wx i ≠ 0) :
    JJOf m (fun i => s * Wi i) U (fun i => s * Wx i) = JJOf m Wi U Wx := by
  unfold JJOf
  rw [show (∑ i, s * Wi i) = s * ∑ i, Wi i from (Finset.mul_sum _ _ _).symm,
    show (∑ i, (s * Wi i) ^ 2 * U i / (s * Wx i)) = s * ∑ i, Wi i ^ 2 * U i / Wx i by
      rw [Finset.mul_sum]
      refine Finset.sum_congr rfl fun i _ => ?_
      have h1 := hWx i
      field_simp
      ring,
    div_mul_eq_mul_div, div_mul_eq_mul_div,
    show -2 * m * (s * ∑ i, Wi i ^ 2 * U i / Wx i) =
      s * (-2 * m * ∑ i, Wi i ^ 2 * U i / Wx i) by ring,
    smul_div_smul _ _ _ hs]

theorem AAOf_smul (m s : ℚ) (hs : s ≠ 0) (Wi U V Wx : Fin N → ℚ)
    (hWx : ∀ i, Wx i ≠ 0) :
    AAOf m (fun i => s * Wi i) U V (fun i => s * Wx i) = s * AAOf m Wi U V Wx := by
  unfold AAOf
  rw [HHOf_smul m s hs Wi V Wx hWx, JJOf_smul m s hs Wi U Wx hWx,
    show (∑ i, s * Wi i) = s * ∑ i, Wi i from (Finset.mul_sum _ _ _).symm,
    show (∑ i, (s * Wi i) ^ 3 * U i * V i / (s * Wx i) ^ 2) =
      s * ∑ i, Wi i ^ 3 * U i * V i / Wx i ^ 2 by
      rw [Finset.mul_sum]
      refine Finset.sum_congr rfl fun i _ => ?_
      have h1 := hWx i
      field_simp
      ring]
  ring

theorem BBOf_smul (m s : ℚ) (hs : s ≠ 0) (Wi U V Wx Wy : Fin N → ℚ)
    (hWx : ∀ i, Wx i ≠ 0) (hWy : ∀ i, Wy i ≠ 0) :
    BBOf m (fun i => s * Wi i) U V (fun i => s * Wx i) (fun i => s * Wy i) =
      s * BBOf m Wi U V Wx Wy := by
  unfold BBOf
  rw [HHOf_smul m s hs Wi V Wx hWx, JJOf_smul m s hs Wi U Wx hWx,
    show (∑ i, (s * Wi i) ^ 2 *
        (4 * m * (s * Wi i) / (s * Wx i) * (U i ^ 2 / (s * Wy i) - V i ^ 2 / (s * Wx i)) -
          2 * V i * HHOf m Wi V Wx / (s * Wx i) + 2 * U i * JJOf m Wi U Wx / (s * Wy i))) =
      s * ∑ i, Wi i ^ 2 *
        (4 * m * Wi i / Wx i * (U i ^ 2 / Wy i - V i ^ 2 / Wx i) -
          2 * V i * HHOf m Wi V Wx / Wx i + 2 * U i * JJOf m Wi U Wx / Wy i) by
      rw [Finset.mul_sum]
      refine Finset.sum_congr rfl fun i _ => ?_
      have h1 := hWx i
      have h2 := hWy i
      field_simp
      ring]
  ring

theorem CCOf_smul (m s : ℚ) (hs : s ≠ 0) (Wi U V Wx Wy : Fin N → ℚ)
    (hWx : ∀ i, Wx i ≠ 0) (hWy : ∀ i, Wy i ≠ 0) :
    CCOf m (fun i => s * Wi i) U V (fun i => s * Wx i) (fun i => s * Wy i) =
      s * CCOf m Wi U V Wx Wy := by
  unfold CCOf
  rw [HHOf_smul m s hs Wi V Wx hWx, JJOf_smul m s hs Wi U Wx hWx,
    show (∑ i, (s * Wi i) ^ 2 / (s * Wy i) *
        (4 * m * (s * Wi i) * U i * V i / (s * Wx i) + V i * JJOf m Wi U Wx +
          U i * HHOf m Wi V Wx)) =
      s * ∑ i, Wi i ^ 2 / Wy i *
        (4 * m * Wi i * U i * V i / Wx i + V i * JJOf m Wi U Wx +
          U i * HHOf m Wi V Wx) by
      rw [Finset.mul_sum]
      refine Finset.sum_congr rfl fun i _ => ?_
      have h1 := hWx i
      have h2 := hWy i
      field_simp
      ring]
  ring

theorem AOf_smul (s : ℚ) (hs : s ≠ 0) (Wi U V Wx : Fin N → ℚ)
    (hWx : ∀ i, Wx i ≠ 0) :
    AOf (fun i => s * Wi i) U V (fun i => s * Wx i) = s * AOf Wi U V Wx := by
  unfold AOf
  rw [Finset.mul_sum]
  refine Finset.sum_congr rfl fun i _ => ?_
  have h1 := hWx i
  field_simp
  ring

theorem BOf_smul (s : ℚ) (hs : s ≠ 0) (Wi U V Wx Wy : Fin N → ℚ)
    (hWx : ∀ i, Wx i ≠ 0) (hWy : ∀ i, Wy i ≠ 0) :
    BOf (fun i => s * Wi i) U V (fun i => s * Wx i) (fun i => s * Wy i) =
      s * BOf Wi U V Wx Wy := by
  unfold BOf
  rw [Finset.mul_sum]
  refine Finset.sum_congr rfl fun i _ => ?_
  have h1 := hWx i
  have h2 := hWy i
  field_simp
  ring

theorem denomOf_smul (m s : ℚ) (hs : s ≠ 0) (Wi U V Wx Wy : Fin N → ℚ)
    (hWx : ∀ i, Wx i ≠ 0) (hWy : ∀ i, Wy i ≠ 0) :
    denomOf m (fun i => s * Wi i) U V (fun i => s * Wx i) (fun i => s * Wy i) =
      s * denomOf m Wi U V Wx Wy := by
  unfold denomOf
  rw [AOf_smul s hs Wi U V Wx hWx, BOf_smul s hs Wi U V Wx Wy hWx hWy,
    AAOf_smul m s hs Wi U V Wx hWx, BBOf_smul m s hs Wi U V Wx Wy hWx hWy,
    CCOf_smul m s hs Wi U V Wx Wy hWx hWy]
  ring

theorem delmat_action_smul (s : ℚ) (hs : s ≠ 0) (Wi w : Fin N → ℚ) (i : Fin N) :
    ((delmatOf (fun j => s * Wi j) (∑ j, s * Wi j)).mulVec (fun j => s * w j)) i =
      s * ((delmatOf Wi (∑ j, Wi j)).mulVec w) i := by
  simp only [delmatOf_mulVec]
  rw [show (∑ j, s * w j) = s * ∑ j, w j from (Finset.mul_sum _ _ _).symm,
    show (∑ j, s * Wi j) = s * ∑ j, Wi j from (Finset.mul_sum _ _ _).symm,
    show s * Wi i * (s * ∑ j, w j) = s * (Wi i * (s * ∑ j, w j)) by ring,
    smul_div_smul _ _ _ hs]
  ring

theorem DDOf_smul (s : ℚ) (hs : s ≠ 0) (Wi V Wx : Fin N → ℚ)
    (hWx : ∀ i, Wx i ≠ 0) :
    DDOf (fun i => s * Wi i) V (fun i => s * Wx i) = fun i => s * DDOf Wi V Wx i := by
  funext i
  simp only [DDOf]
  rw [show (fun j => (s * Wi j) ^ 2 * V j / (s * Wx j)) =
      fun j => s * (Wi j ^ 2 * V j / Wx j) from funext fun j => by
        have h1 := hWx j; field_simp; ring]
  exact delmat_action_smul s hs Wi (fun j => Wi j ^ 2 * V j / Wx j) i

theorem EEOf_smul (s : ℚ) (hs : s ≠ 0) (Wi U Wy : Fin N → ℚ)
    (hWy : ∀ i, Wy i ≠ 0) :
    EEOf (fun i => s * Wi i) U (fun i => s * Wy i) = fun i => s * EEOf Wi U Wy i := by
  funext i
  simp only [EEOf]
  rw [show (fun k => (s * Wi k) ^ 2 * U k / (s * Wy k)) =
      fun k => s * (Wi k ^ 2 * U k / Wy k) from funext fun k => by
        have h2 := hWy k; field_simp; ring,
    delmat_action_smul s hs Wi (fun k => Wi k ^ 2 * U k / Wy k) i]
  ring

theorem FFOf_smul (s : ℚ) (hs : s ≠ 0) (Wi V Wy : Fin N → ℚ)
    (hWy : ∀ i, Wy i ≠ 0) :
    FFOf (fun i => s * Wi i) V (fun i => s * Wy i) = fun i => s * FFOf Wi V Wy i := by
  funext i
  simp only [FFOf]
  rw [show (fun j => (s * Wi j) ^ 2 * V j / (s * Wy j)) =
      fun j => s * (Wi j ^ 2 * V j / Wy j) from funext fun j => by
        have h2 := hWy j; field_simp; ring]
  exact delmat_action_smul s hs Wi (fun j => Wi j ^ 2 * V j / Wy j) i

theorem GGOf_smul (s : ℚ) (hs : s ≠ 0) (Wi U Wx : Fin N → ℚ)
    (hWx : ∀ i, Wx i ≠ 0) :
    GGOf (fun i => s * Wi i) U (fun i => s * Wx i) = fun i => s * GGOf Wi U Wx i := by
  funext i
  simp only [GGOf]
  rw [show (fun j => (s * Wi j) ^ 2 * U j / (s * Wx j)) =
      fun j => s * (Wi j ^ 2 * U j / Wx j) from funext fun j => by
        have h1 := hWx j; field_simp; ring]
  exact delmat_action_smul s hs Wi (fun j => Wi j ^ 2 * U j / Wx j) i

theorem dmdxOf_smul (m s : ℚ) (hs : s ≠ 0) (Wx Wy : Fin N → ℚ)
    (hWx : ∀ i, Wx i ≠ 0) (hWy : ∀ i, Wy i ≠ 0) (Wi U V : Fin N → ℚ) :
    dmdxOf m (fun i => s * Wi i) U V (fun i => s * Wx i) (fun i => s * Wy i) =
      dmdxOf m Wi U V Wx Wy := by
  funext i
  simp only [dmdxOf, DDOf_smul s hs Wi V Wx hWx, EEOf_smul s hs Wi U Wy hWy,
    FFOf_smul s hs Wi V Wy hWy, denomOf_smul m s hs Wi U V Wx Wy hWx hWy]
  rw [show -1 * (m ^ 2 * (s * DDOf Wi V Wx i) + m * (s * EEOf Wi U Wy i) -
      s * FFOf Wi V Wy i) =
      s * (-1 * (m ^ 2 * DDOf Wi V Wx i + m * EEOf Wi U Wy i - FFOf Wi V Wy i)) by ring,
    smul_div_smul _ _ _ hs]

theorem dmdyOf_smul (m s : ℚ) (hs : s ≠ 0) (Wx Wy : Fin N → ℚ)
    (hWx : ∀ i, Wx i ≠ 0) (hWy : ∀ i, Wy i ≠ 0) (Wi U V : Fin N → ℚ) :
    dmdyOf m (fun i => s * Wi i) U V (fun i => s * Wx i) (fun i => s * Wy i) =
      dmdyOf m Wi U V Wx Wy := by
  funext i
  simp only [dmdyOf, GGOf_smul s hs Wi U Wx hWx, DDOf_smul s hs Wi V Wx hWx,
    EEOf_smul s hs Wi U Wy hWy, denomOf_smul m s hs Wi U V Wx Wy hWx hWy]
  rw [show -1 * (m ^ 2 * (s * GGOf Wi U Wx i) - 2 * m * (s * DDOf Wi V Wx i) -
      0.5 * (s * EEOf Wi U Wy i)) =
      s * (-1 * (m ^ 2 * GGOf Wi U Wx i - 2 * m * DDOf Wi V Wx i -
        0.5 * EEOf Wi U Wy i)) by ring,
    smul_div_smul _ _ _ hs]

theorem dcdxOf_smul (m s : ℚ) (hs : s ≠ 0) (Wx Wy : Fin N → ℚ)
    (hWx : ∀ i, Wx i ≠ 0) (hWy : ∀ i, Wy i ≠ 0) (Wi U V : Fin N → ℚ)
    (xbar : ℚ) :
    dcdxOf m (fun i => s * Wi i) U V (fun i => s * Wx i) (fun i => s * Wy i) xbar =
      dcdxOf m Wi U V Wx Wy xbar := by
  funext i
  simp only [dcdxOf, HHOf_smul m s hs Wi V Wx hWx, JJOf_smul m s hs Wi U Wx hWx,
    dmdxOf_smul m s hs Wx Wy hWx hWy Wi U V]
  rw [show (∑ k, s * Wi k) = s * ∑ k, Wi k from (Finset.mul_sum _ _ _).symm,
    show m * (s * Wi i) = s * (m * Wi i) by ring, smul_div_smul _ _ _ hs]

theorem dcdyOf_smul (m s : ℚ) (hs : s ≠ 0) (Wx Wy : Fin N → ℚ)
    (hWx : ∀ i, Wx i ≠ 0) (hWy : ∀ i, Wy i ≠ 0) (Wi U V : Fin N → ℚ)
    (xbar : ℚ) :
    dcdyOf m (fun i => s * Wi i) U V (fun i => s * Wx i) (fun i => s * Wy i) xbar =
      dcdyOf m Wi U V Wx Wy xbar := by
  funext i
  simp only [dcdyOf, HHOf_smul m s hs Wi V Wx hWx, JJOf_smul m s hs Wi U Wx hWx,
    dmdyOf_smul m s hs Wx Wy hWx hWy Wi U V]
  rw [show (∑ k, s * Wi k) = s * ∑ k, Wi k from (Finset.mul_sum _ _ _).symm,
    smul_div_smul _ _ _ hs]
theorem mBest_smul (minimize : (ℚ → ℚ) → ℚ → ℚ) (s : ℚ) (hs : s ≠ 0)
    (x y Wx Wy : Fin N → ℚ) (hWx : ∀ i, Wx i ≠ 0) (hWy : ∀ i, Wy i ≠ 0)
    (hM : ∀ (g : ℚ → ℚ) (c x0 : ℚ), 0 < c →
      minimize (fun t => c * g t) x0 = minimize g x0) :
    mBest minimize x y (fun i => s * Wx i) (fun i => s * Wy i) =
      mBest minimize x y Wx Wy := by
  have hspos : 0 < s ^ 2 := lt_of_le_of_ne (sq_nonneg s) (Ne.symm (pow_ne_zero 2 hs))
  have h1 : mBest minimize x y (fun i => s * Wx i) (fun i => s * Wy i) =
      minimize (fun mm => mfunc mm (fun i => (x i, s * Wx i))
        (fun i => (y i, s * Wy i))) (m0Of x y) := rfl
  have h2 : mBest minimize x y Wx Wy =
      minimize (fun mm => mfunc mm (fun i => (x i, Wx i))
        (fun i => (y i, Wy i))) (m0Of x y) := rfl
  rw [h1, show (fun mm => mfunc mm (fun i => (x i, s * Wx i))
      (fun i => (y i, s * Wy i))) =
      fun mm => s ^ 2 * mfunc mm (fun i => (x i, Wx i)) (fun i => (y i, Wy i)) from
      funext fun mm => mfunc_smul mm s hs x y Wx Wy hWx hWy,
    hM (fun mm => mfunc mm (fun i => (x i, Wx i)) (fun i => (y i, Wy i)))
      (s ^ 2) (m0Of x y) hspos, ← h2]

theorem wls2d_scale_aux (minimize : (ℚ → ℚ) → ℚ → ℚ) (x y delx dely : Fin N → ℚ)
    (k : ℚ) (hk : 0 < k) (hdx : ∀ i, 0 < delx i) (hdy : ∀ i, 0 < dely i)
    (hM : ∀ (g : ℚ → ℚ) (c x0 : ℚ), 0 < c →
      minimize (fun t => c * g t) x0 = minimize g x0) :
    wls2d minimize x y (fun i => k * delx i) (fun i => k * dely i) =
      wls2d minimize x y delx dely := by
  have hs : ((k ^ 2)⁻¹ : ℚ) ≠ 0 := inv_ne_zero (pow_ne_zero 2 hk.ne')
  have hdx2 : ∀ i, (1 : ℚ) / delx i ^ 2 ≠ 0 :=
    fun i => one_div_ne_zero (pow_ne_zero 2 (hdx i).ne')
  have hdy2 : ∀ i, (1 : ℚ) / dely i ^ 2 ≠ 0 :=
    fun i => one_div_ne_zero (pow_ne_zero 2 (hdy i).ne')
  have hWlamx : (fun i : Fin N => 1 / (k * delx i) ^ 2) =
      fun i => (k ^ 2)⁻¹ * (1 / delx i ^ 2) := by
    funext i
    have h1 := (hdx i).ne'
    have h2 := hk.ne'
    field_simp
    ring
  have hWlamy : (fun i : Fin N => 1 / (k * dely i) ^ 2) =
      fun i => (k ^ 2)⁻¹ * (1 / dely i ^ 2) := by
    funext i
    have h1 := (hdy i).ne'
    have h2 := hk.ne'
    field_simp
    ring
  have hT : ∀ aa bb : Fin N → ℚ,
      (∑ i, (1 / (1 / (k * dely i) ^ 2) * aa i ^ 2 +
        1 / (1 / (k * delx i) ^ 2) * bb i ^ 2)) =
      k ^ 2 * ∑ i, (1 / (1 / dely i ^ 2) * aa i ^ 2 +
        1 / (1 / delx i ^ 2) * bb i ^ 2) := by
    intro aa bb
    rw [Finset.mul_sum]
    refine Finset.sum_congr rfl fun i _ => ?_
    rw [one_div_one_div, one_div_one_div, one_div_one_div, one_div_one_div]
    ring
  have harg : ∀ Sq T : ℚ,
      (k ^ 2)⁻¹ * Sq / ((N : ℚ) - 2) * (k ^ 2 * T) = Sq / ((N : ℚ) - 2) * T := by
    intro Sq T
    rw [show (k ^ 2)⁻¹ * Sq / ((N : ℚ) - 2) * (k ^ 2 * T) =
      (k ^ 2)⁻¹ * k ^ 2 * (Sq / ((N : ℚ) - 2) * T) by ring,
      inv_mul_cancel₀ (pow_ne_zero 2 hk.ne'), one_mul]
  have hmB : mBest minimize x y (fun i => (k ^ 2)⁻¹ * (1 / delx i ^ 2))
      (fun i => (k ^ 2)⁻¹ * (1 / dely i ^ 2)) =
      mBest minimize x y (fun i => 1 / delx i ^ 2) (fun i => 1 / dely i ^ 2) :=
    mBest_smul minimize ((k ^ 2)⁻¹) hs x y (fun i => 1 / delx i ^ 2)
      (fun i => 1 / dely i ^ 2) hdx2 hdy2 hM
  rw [wls2d_eq, wls2d_eq]
  simp only [hWlamx, hWlamy, hmB]
  generalize mBest minimize x y (fun i => 1 / delx i ^ 2) (fun i => 1 / dely i ^ 2) = mB
  simp only [effWeight_smul mB ((k ^ 2)⁻¹) hs, xAdj_smul mB ((k ^ 2)⁻¹) hs,
    yAdj_smul mB ((k ^ 2)⁻¹) hs, dev_smul ((k ^ 2)⁻¹) hs, wbar_smul ((k ^ 2)⁻¹) hs,
    cOf_smul mB ((k ^ 2)⁻¹) hs, SOf_smul mB ((k ^ 2)⁻¹) hs,
    dmdxOf_smul mB ((k ^ 2)⁻¹) hs (fun i => 1 / delx i ^ 2)
      (fun i => 1 / dely i ^ 2) hdx2 hdy2,
    dmdyOf_smul mB ((k ^ 2)⁻¹) hs (fun i => 1 / delx i ^ 2)
      (fun i => 1 / dely i ^ 2) hdx2 hdy2,
    dcdxOf_smul mB ((k ^ 2)⁻¹) hs (fun i => 1 / delx i ^ 2)
      (fun i => 1 / dely i ^ 2) hdx2 hdy2,
    dcdyOf_smul mB ((k ^ 2)⁻¹) hs (fun i => 1 / delx i ^ 2)
      (fun i => 1 / dely i ^ 2) hdx2 hdy2,
    hT, harg]

/-- Objective-rescaling invariance of the root-checking minimizer model. -/
theorem rootMin_scale (mstar : ℚ) : ∀ (g : ℚ → ℚ) (c x0 : ℚ), 0 < c →
    rootMin mstar (fun t => c * g t) x0 = rootMin mstar g x0 := by
  intro g c x0 hc
  simp [rootMin, mul_eq_zero, hc.ne']

/-- C8 amended: for a sample with constant errors sigma_x = a, sigma_y = b
and any positive factor k, fitting the same data with errors k*a, k*b — the
minimizer modeled as a deterministic function of the objective and starting
point that is invariant under positive rescaling of the objective, as every
exact minimizer is — returns the same slope and intercept AND the same (not
k-times-scaled) uncertainties: the `S/(N-2)` factor cancels a uniform
rescaling of the quoted errors, so `delta_m` and `delta_c` are invariant
rather than proportional to k. -/
theorem wls2d_scale_invariant (minimize : (ℚ → ℚ) → ℚ → ℚ)
    (x y : Fin N → ℚ) (a b k : ℚ) (ha : 0 < a) (hb : 0 < b) (hk : 0 < k)
    (hM : ∀ (g : ℚ → ℚ) (c x0 : ℚ), 0 < c →
      minimize (fun t => c * g t) x0 = minimize g x0) :
    wls2d minimize x y (fun _ => k * a) (fun _ => k * b) =
      wls2d minimize x y (fun _ => a) (fun _ => b) :=
  wls2d_scale_aux minimize x y (fun _ => a) (fun _ => b) k hk
    (fun _ => ha) (fun _ => hb) hM

/-- Witness for C8 (amended) at the sample x = (0,1,2), y = (0,1,-1) with
unit errors scaled by k = 2, under the exact root-finding minimizer model. -/
theorem wls2d_scale_invariant_witness :
    (0 < (1 : ℚ) ∧ 0 < (1 : ℚ) ∧ 0 < (2 : ℚ)) ∧
      wls2d (rootMin (-1)) (![0, 1, 2] : Fin 3 → ℚ) ![0, 1, -1]
          (fun _ => 2 * 1) (fun _ => 2 * 1) =
        wls2d (rootMin (-1)) (![0, 1, 2] : Fin 3 → ℚ) ![0, 1, -1]
          (fun _ => 1) (fun _ => 1) :=
  ⟨⟨by norm_num, by norm_num, by norm_num⟩,
    wls2d_scale_invariant (rootMin (-1)) ![0, 1, 2] ![0, 1, -1] 1 1 2
      (by norm_num) (by norm_num) (by norm_num) (rootMin_scale (-1))⟩

/-- C8 counterexample: at the sample x = (0,1,2), y = (0,1,-1) with unit
errors and scaling factor k = 2 (the minimizer returning the exact root -1 of
the objective, a global minimizer since the objective is a square vanishing
there), the slope uncertainty returned for the scaled errors is NOT k times
the slope uncertainty returned for the original errors: both equal
sqrt(4/3) > 0, refuting the claimed proportional scaling of the
uncertainties. -/
theorem wls2d_scale_counterexample :
    (wls2d (rootMin (-1)) (![0, 1, 2] : Fin 3 → ℚ) ![0, 1, -1]
        (fun _ => 2 * 1) (fun _ => 2 * 1)).2.2.1 ≠
      2 * (wls2d (rootMin (-1)) (![0, 1, 2] : Fin 3 → ℚ) ![0, 1, -1]
        (fun _ => 1) (fun _ => 1)).2.2.1 := by
  have hscale : (wls2d (rootMin (-1)) (![0, 1, 2] : Fin 3 → ℚ) ![0, 1, -1]
      (fun _ => 2 * 1) (fun _ => 2 * 1)).2.2.1 =
      (wls2d (rootMin (-1)) (![0, 1, 2] : Fin 3 → ℚ) ![0, 1, -1]
      (fun _ => 1) (fun _ => 1)).2.2.1 :=
    congrArg (fun p : ℚ × ℚ × ℝ × ℝ => p.2.2.1)
      (wls2d_scale_aux (rootMin (-1)) (![0, 1, 2] : Fin 3 → ℚ) ![0, 1, -1]
        (fun _ => 1) (fun _ => 1) 2 (by norm_num)
        (fun i => by norm_num) (fun i => by norm_num) (rootMin_scale (-1)))
  have h2 : (wls2d (rootMin (-1)) (![0, 1, 2] : Fin 3 → ℚ) ![0, 1, -1]
      (fun _ => 1) (fun _ => 1)).2.2.1 = Real.sqrt ((4 / 3 : ℚ) : ℝ) := by
    rw [wls2d_eq]
    norm_num [mBest, rootMin, mfunc, m0Of, effWeight, dev, wbar, cOf, SOf, xAdj,
      yAdj, lamOf, dmdyOf, dmdxOf, DDOf, EEOf, FFOf, GGOf, AOf, BOf, AAOf, BBOf,
      CCOf, HHOf, JJOf, denomOf, delmatOf, Matrix.mulVec, Matrix.dotProduct,
      Matrix.of_apply, Fin.sum_univ_three,
      show (0 : Fin 3) ≠ 1 from by decide, show (0 : Fin 3) ≠ 2 from by decide,
      show (1 : Fin 3) ≠ 0 from by decide, show (1 : Fin 3) ≠ 2 from by decide,
      show (2 : Fin 3) ≠ 0 from by decide, show (2 : Fin 3) ≠ 1 from by decide]
  intro h
  rw [hscale, h2] at h
  have hpos : 0 < Real.sqrt ((4 / 3 : ℚ) : ℝ) :=
    Real.sqrt_pos.mpr (by norm_num)
  linarith
